import Mathlib

/-!
Verification of the eumdac-fetch core against its specification.

The development shallowly embeds the parts of the code the claims are
about:

* `search.py` (`SearchService.iter_products`, `_bisect_search`,
  `count`, `search`): the remote catalog is modelled as a fixed ground
  set `univ : List Product` of products already matching every non-time
  filter field (those fields are copied unchanged by the bisection, so
  they are constant across all recursive calls; `SFilters.base`
  records them abstractly).  A catalog query returns the members of the
  ground set whose sensing time lies in the (inclusive) window, and
  `count` returns the length of that list, matching a deterministic
  catalog.  Timestamps are exact rationals; `dtstart + (dtend -
  dtstart) / 2` is the exact midpoint.  The Python recursion has no
  depth bound, so `bisect_search` takes a fuel argument and returns
  `fuelOut` when the modelled call recurses deeper than the budget:
  a run that returns `fuelOut` for every budget never terminates.
* `state.py` (`StateDB`): the SQLite table is a list of rows with the
  composite key (product_id, job_name); the SQL statements become list
  transformations.
* `downloader.py` (`DownloadService`): the retry loop of
  `_download_one` is driven by a script assigning each attempt index a
  transfer outcome; MD5 hashing of file bytes is an abstract function
  (the hash algorithm lives in `hashlib`, outside the repository).
* `remote.py` (`TokenRefreshingHTTPFileSystem`): header, session and
  close-count state with the 401-refresh-retry policy.
* `filters.py` (`_sample_interval_factory`): Python's stable ascending
  `sorted` is `List.insertionSort` on the same key.
-/

set_option maxRecDepth 10000

/-! ## Search service model (`search.py`) -/

/-- A catalog product: an id and its sensing timestamp (seconds, exact). -/
structure Product where
  pid : Nat
  sensing : Rat
deriving DecidableEq, Repr

/-- The filter bundle as bisection sees it: the time window plus `base`,
an opaque stand-in for every other (unchanged) filter field of
`SearchFilters`. -/
structure SFilters where
  dtstart : Option Rat
  dtend : Option Rat
  base : Nat
deriving DecidableEq, Repr

/-- Whether a product falls in the filter's time window (an unset bound is
no constraint; both bounds inclusive). -/
def inRange (f : SFilters) (p : Product) : Bool :=
  (match f.dtstart with
   | none => true
   | some a => decide (a ≤ p.sensing)) &&
  (match f.dtend with
   | none => true
   | some b => decide (p.sensing ≤ b))

/-- The items a single catalog search returns: the ground set restricted to
the window (`SearchService.search` without a limit). -/
def searchItems (univ : List Product) (f : SFilters) : List Product :=
  univ.filter (fun p => inRange f p)

/-- `SearchService.count`: `results.total_results` of the deterministic
catalog. -/
def countQ (univ : List Product) (f : SFilters) : Nat :=
  (searchItems univ f).length

/-- `filters.dtstart + (filters.dtend - filters.dtstart) / 2`. -/
def midpointOf (a b : Rat) : Rat := a + (b - a) / 2

/-- `SearchFilters(**{**filters.__dict__, "dtend": midpoint})`. -/
def firstHalf (f : SFilters) (m : Rat) : SFilters := { f with dtend := some m }

/-- `SearchFilters(**{**filters.__dict__, "dtstart": midpoint})`. -/
def secondHalf (f : SFilters) (m : Rat) : SFilters := { f with dtstart := some m }

/-- Outcome of a search call: a product list, the `ValueError` raised when
the date range is missing, or exhaustion of the recursion budget. -/
inductive BOut where
  | ok (products : List Product)
  | invalidInput
  | fuelOut
deriving DecidableEq, Repr

/-- `SearchService._bisect_search`.  Checks the date range first (the
`ValueError`), then bisects at the midpoint; a half whose count is at most
10000 is searched directly, otherwise the call recurses on it.  The second
half is only reached when the first succeeded, as in the Python control
flow. -/
def bisect_search (univ : List Product) (fuel : Nat) (f : SFilters) : BOut :=
  match f.dtstart, f.dtend with
  | some a, some b =>
    match fuel with
    | 0 => .fuelOut
    | fuel' + 1 =>
      let m := midpointOf a b
      let r1 :=
        if countQ univ (firstHalf f m) ≤ 10000 then .ok (searchItems univ (firstHalf f m))
        else bisect_search univ fuel' (firstHalf f m)
      match r1 with
      | .ok ps1 =>
        let r2 :=
          if countQ univ (secondHalf f m) ≤ 10000 then .ok (searchItems univ (secondHalf f m))
          else bisect_search univ fuel' (secondHalf f m)
        match r2 with
        | .ok ps2 => .ok (ps1 ++ ps2)
        | e => e
      | e => e
  | _, _ => .invalidInput

/-- The leaf queries `bisect_search` iterates, in the order it concatenates
them (specification-side view of the same recursion). -/
def bisect_leaves (univ : List Product) (fuel : Nat) (f : SFilters) :
    Option (List SFilters) :=
  match f.dtstart, f.dtend with
  | some a, some b =>
    match fuel with
    | 0 => none
    | fuel' + 1 =>
      let m := midpointOf a b
      let r1 :=
        if countQ univ (firstHalf f m) ≤ 10000 then some [firstHalf f m]
        else bisect_leaves univ fuel' (firstHalf f m)
      match r1 with
      | some l1 =>
        let r2 :=
          if countQ univ (secondHalf f m) ≤ 10000 then some [secondHalf f m]
          else bisect_leaves univ fuel' (secondHalf f m)
        match r2 with
        | some l2 => some (l1 ++ l2)
        | none => none
      | none => none
  | _, _ => none

/-- `products[:limit]` / `itertools.islice(results, limit)`. -/
def truncateTo (limit : Option Nat) (l : List Product) : List Product :=
  match limit with
  | none => l
  | some n => l.take n

/-- `SearchService.iter_products`: a single search when the total fits the
10000 cap, date bisection otherwise, truncated to the limit. -/
def iter_products (univ : List Product) (fuel : Nat) (f : SFilters)
    (limit : Option Nat) : BOut :=
  if countQ univ f ≤ 10000 then .ok (truncateTo limit (searchItems univ f))
  else
    match bisect_search univ fuel f with
    | .ok ps => .ok (truncateTo limit ps)
    | e => e

/-- The leaves tile the window from `x` to `b`: each leaf starts where the
previous one ended. -/
def chainFrom (x b : Rat) : List SFilters → Prop
  | [] => x = b
  | g :: rest => g.dtstart = some x ∧ ∃ y, g.dtend = some y ∧ chainFrom y b rest

/-! ## State store model (`state.py`) -/

/-- `ProductStatus`. -/
inductive PStatus where
  | pending
  | downloading
  | downloaded
  | verified
  | processing
  | processed
  | failed
deriving DecidableEq, Repr

/-- A row of the `products` table (`ProductRecord`). -/
structure Row where
  product_id : String
  job_name : String
  collection : String
  size_kb : Rat
  md5 : String
  bytes_downloaded : Nat
  status : PStatus
  download_path : String
  error_message : String
  created_at : String
  updated_at : String
deriving DecidableEq, Repr

/-- The `products` table: its rows in insertion order.  SQLite's composite
primary key makes the (product_id, job_name) pairs pairwise distinct;
`keys_nodup` states that table invariant. -/
abbrev StateDB := List Row

def rowKey (r : Row) : String × String := (r.product_id, r.job_name)

def keys_nodup (db : StateDB) : Prop := (db.map rowKey).Nodup

/-- `StateDB.get`: `SELECT * FROM products WHERE product_id = ? AND
job_name = ?`. -/
def db_get (db : StateDB) (pid job : String) : Option Row :=
  db.find? (fun r => r.product_id == pid && r.job_name == job)

/-- `StateDB.upsert`: stamps `created_at` when the record carries none and
`updated_at` always, then `INSERT ... ON CONFLICT(product_id, job_name) DO
UPDATE SET` the mutable columns (size_kb, md5, bytes_downloaded, status,
download_path, error_message, updated_at) from the excluded row.  On
conflict the stored `created_at` and `collection` are untouched. -/
def db_upsert (db : StateDB) (rec : Row) (now : String) : StateDB :=
  let rec' : Row :=
    { rec with
      created_at := if rec.created_at = "" then now else rec.created_at
      updated_at := now }
  if (db_get db rec.product_id rec.job_name).isSome then
    db.map (fun r =>
      if r.product_id == rec.product_id && r.job_name == rec.job_name then
        { r with
          size_kb := rec'.size_kb
          md5 := rec'.md5
          bytes_downloaded := rec'.bytes_downloaded
          status := rec'.status
          download_path := rec'.download_path
          error_message := rec'.error_message
          updated_at := rec'.updated_at }
      else r)
  else db ++ [rec']

/-- The optional column assignments `update_status` accepts as keyword
arguments in `_download_one` (download_path, bytes_downloaded,
error_message). -/
structure StatusUpdate where
  status : PStatus
  download_path : Option String
  bytes_downloaded : Option Nat
  error_message : Option String
deriving DecidableEq, Repr

def statusOnly (s : PStatus) : StatusUpdate := ⟨s, none, none, none⟩

def statusWithError (s : PStatus) (msg : String) : StatusUpdate :=
  ⟨s, none, none, some msg⟩

/-- `StateDB.update_status`: `UPDATE products SET status = ?, updated_at
= ?, ... WHERE product_id = ? AND job_name = ?`. -/
def update_status (db : StateDB) (pid job : String) (u : StatusUpdate)
    (now : String) : StateDB :=
  db.map (fun r =>
    if r.product_id == pid && r.job_name == job then
      { r with
        status := u.status
        updated_at := now
        download_path := u.download_path.getD r.download_path
        bytes_downloaded := u.bytes_downloaded.getD r.bytes_downloaded
        error_message := u.error_message.getD r.error_message }
    else r)

/-- `StateDB.get_resumable`: rows of the job whose status is PENDING,
DOWNLOADING or FAILED. -/
def get_resumable (db : StateDB) (job : String) : List Row :=
  db.filter (fun r =>
    r.job_name == job &&
      (r.status == PStatus.pending || r.status == PStatus.downloading ||
        r.status == PStatus.failed))

/-- `StateDB.reset_stale_downloads`: `UPDATE products SET status =
'pending', updated_at = ? WHERE job_name = ? AND status = 'downloading'`,
returning the cursor's rowcount. -/
def reset_stale_downloads (db : StateDB) (job now : String) : StateDB × Nat :=
  (db.map (fun r =>
      if r.job_name == job && r.status == PStatus.downloading then
        { r with status := PStatus.pending, updated_at := now }
      else r),
   db.countP (fun r => r.job_name == job && r.status == PStatus.downloading))

/-! ## Downloader model (`downloader.py`) -/

/-- The reserved separator `_ENTRY_SEP`. -/
def entry_sep : String := "::entry::"

/-- `_encode_entry_key`. -/
def encode_entry_key (product_id entry_name : String) : String :=
  product_id ++ entry_sep ++ entry_name

/-- Split a character list at the first occurrence of `sep` (Python's
`key.split(sep, 1)` when `sep in key`); `none` when `sep` does not occur. -/
def split_first (sep : List Char) : List Char → Option (List Char × List Char)
  | [] => if sep = [] then some ([], []) else none
  | c :: rest =>
    if sep.isPrefixOf (c :: rest) then some ([], (c :: rest).drop sep.length)
    else
      match split_first sep rest with
      | some (pre, post) => some (c :: pre, post)
      | none => none

/-- `_decode_entry_key`: split at the first `_ENTRY_SEP`; a key without the
separator is a whole-product key. -/
def decode_entry_key (key : String) : String × Option String :=
  match split_first entry_sep.toList key.toList with
  | some (pre, post) => (String.mk pre, some (String.mk post))
  | none => (key, none)

/-- `e.split("/")[-1]` (split on the slash character; the last piece). -/
def basename (s : String) : String :=
  String.mk ((s.toList.splitOn '/').getLastD s.toList)

/-- The entry-pattern test of `download_all`: some pattern matches the
entry's basename or the full entry name.  `fnm` abstracts
`fnmatch.fnmatch(name, pattern)` (standard library, outside the repo). -/
def entry_matches (fnm : String → String → Bool) (pats : List String)
    (e : String) : Bool :=
  pats.any (fun pat => fnm (basename e) pat || fnm e pat)

/-- A product as the registration loop of `download_all` sees it: its id
(`str(product)`), its `size` attribute, and its `entries` attribute
(`none` when the attribute access raises and the product is skipped). -/
structure RegProduct where
  pid : String
  size_kb : Rat
  entry_list : Option (List String)
deriving DecidableEq, Repr

/-- The `ProductRecord(product_id=..., job_name=..., collection=...,
size_kb=...)` the registration loop upserts (all other fields default). -/
def mk_pending_record (key job coll : String) (size : Rat) : Row :=
  { product_id := key, job_name := job, collection := coll, size_kb := size
    md5 := "", bytes_downloaded := 0, status := PStatus.pending
    download_path := "", error_message := "", created_at := "", updated_at := "" }

/-- Register one key of the registration loop: a row that already exists
is never upserted — rows in VERIFIED or PROCESSED are skipped explicitly
(`continue`), and any other existing row falls through the
`if not existing` guard; only a missing row is inserted as PENDING. -/
def register_key (job coll now key : String) (size : Rat) (db : StateDB) :
    StateDB :=
  if (db_get db key job).isSome then db
  else db_upsert db (mk_pending_record key job coll size) now

/-- The entry-mode body of the registration loop: skip the product when
entry enumeration raised or no entry matched, else register one row per
matching entry (per-entry sizes are unknown, hence `size_kb = 0`). -/
def register_entries (fnm : String → String → Bool) (pats : List String)
    (job coll now pid0 : String) (el : Option (List String))
    (db : StateDB) : StateDB :=
  match el with
  | none => db
  | some es =>
    let matching := es.filter (entry_matches fnm pats)
    if matching = [] then db
    else
      matching.foldl
        (fun d e => register_key job coll now (encode_entry_key pid0 e) 0 d) db

/-- One iteration of the registration loop of `download_all`: entry mode
when glob patterns were supplied, whole-product mode otherwise. -/
def register_product (fnm : String → String → Bool)
    (entries : Option (List String)) (job coll now : String)
    (db : StateDB) (p : RegProduct) : StateDB :=
  match entries with
  | some pats => register_entries fnm pats job coll now p.pid p.entry_list db
  | none => register_key job coll now p.pid p.size_kb db

/-- The state-store effect of `DownloadService.download_all`: register every
product, read the resumable rows once, then let each row's download write
its status updates.  `outcome r` abstracts the sequence of `update_status`
calls `_download_one` makes for row `r`; every one of those calls uses
`db_key = record.product_id` and `record.job_name`, which is what the frame
theorem rests on. -/
def download_all_db (fnm : String → String → Bool)
    (entries : Option (List String)) (products : List RegProduct)
    (job coll now : String) (outcome : Row → List StatusUpdate)
    (db : StateDB) : StateDB :=
  let db1 := products.foldl (register_product fnm entries job coll now) db
  (get_resumable db1 job).foldl
    (fun d r => (outcome r).foldl
      (fun d' u => update_status d' r.product_id r.job_name u now) d)
    db1

/-- What one invocation of the blocking transfer
(`asyncio.wait_for(asyncio.to_thread(self._download_blocking, ...))`)
did, as the retry loop of `_download_one` observes it:

* `completed c`  — `_download_blocking` returned True; the target file
  now holds bytes `c`;
* `interrupted c` — the shutdown flag was seen between chunks, the stream
  loop returned False; a partial file `c` is on disk;
* `shutdownBefore` — the shutdown flag was already set when the attempt
  started (`if self._shutdown.is_set(): return`);
* `retryableErr m lo` — an exception of `RETRYABLE_EXCEPTIONS` with
  message `m` (including the `asyncio.wait_for` timeout); `lo` is the
  partial file the failed transfer may have left;
* `fatalErr m lo` — any other exception.

File bytes are `List Nat`. -/
inductive TransferOutcome where
  | completed (content : List Nat)
  | interrupted (content : List Nat)
  | shutdownBefore
  | retryableErr (msg : String) (leftover : Option (List Nat))
  | fatalErr (msg : String) (leftover : Option (List Nat))
deriving DecidableEq, Repr

/-- `DownloadService._verify_md5` on file bytes `content`: `md5attr` is
`none` when reading `product.md5` raises (verification skipped), the empty
string is falsy (`if not expected_md5`), otherwise the hex digest of the
file — `hash` abstracts `hashlib.md5` — is compared with the expected
one. -/
def verify_md5 (hash : List Nat → String) (md5attr : Option String)
    (content : List Nat) : Bool :=
  match md5attr with
  | none => true
  | some expected => if expected = "" then true else hash content == expected

/-- The final FAILED message after retry exhaustion:
`f"Failed after {self.max_retries + 1} attempts: {last_error}"`. -/
def exhaust_message (max_retries : Nat) (msg : String) : String :=
  "Failed after " ++ toString (max_retries + 1) ++ " attempts: " ++ msg

/-- What one `_download_one` call did: the `update_status` calls it issued
for its row in order, the file finally on disk (never deleted by the
downloader), and how many transfer attempts ran. -/
structure OneRun where
  trace : List StatusUpdate
  file : Option (List Nat)
  attemptsUsed : Nat
deriving DecidableEq, Repr

/-- The retry loop of `_download_one` (entry `none` = whole-product mode),
unrolled from attempt index `attempt` with `remaining` attempts allowed
(`remaining = max_retries + 1 - attempt`); `script` tells what the
blocking transfer did on each attempt index.  The DOWNLOADED update
carries `str(download_path)` — abstracted as the constant
"download_path" — and `download_path.stat().st_size`, the length of the
transferred bytes. -/
def download_one_loop (verify : Bool) (entry : Option String)
    (md5attr : Option String) (hash : List Nat → String) (max_retries : Nat)
    (script : Nat → TransferOutcome) :
    Nat → Nat → Option (List Nat) → OneRun
  | _attempt, 0, file => ⟨[], file, 0⟩
  | attempt, remaining + 1, file =>
    match script attempt with
    | .shutdownBefore => ⟨[], file, 0⟩
    | .completed c =>
      let afterDownload :=
        if verify && entry.isNone then
          if verify_md5 hash md5attr c then [statusOnly PStatus.verified]
          else [statusWithError PStatus.failed "MD5 verification failed"]
        else [statusOnly PStatus.verified]
      ⟨statusOnly PStatus.downloading ::
          { status := PStatus.downloaded
            download_path := some "download_path"
            bytes_downloaded := some c.length
            error_message := none } :: afterDownload,
        some c, 1⟩
    | .interrupted c =>
      ⟨[statusOnly PStatus.downloading], some c, 1⟩
    | .fatalErr m lo =>
      ⟨[statusOnly PStatus.downloading, statusWithError PStatus.failed m],
        (match lo with | some c => some c | none => file), 1⟩
    | .retryableErr m lo =>
      let file' := match lo with | some c => some c | none => file
      match remaining with
      | 0 =>
        ⟨[statusOnly PStatus.downloading,
            statusWithError PStatus.failed (exhaust_message max_retries m)],
          file', 1⟩
      | remaining' + 1 =>
        let rest :=
          download_one_loop verify entry md5attr hash max_retries script
            (attempt + 1) (remaining' + 1) file'
        ⟨statusOnly PStatus.downloading :: rest.trace, rest.file,
          rest.attemptsUsed + 1⟩

/-- `_download_one` for one row: at most `max_retries + 1` attempts,
starting with no file on disk. -/
def download_one (verify : Bool) (entry : Option String)
    (md5attr : Option String) (hash : List Nat → String) (max_retries : Nat)
    (script : Nat → TransferOutcome) : OneRun :=
  download_one_loop verify entry md5attr hash max_retries script 0
    (max_retries + 1) none

/-- Case-insensitive substring test for error messages. -/
def mentions (needle s : String) : Bool :=
  decide (needle.toList <:+: s.toList.map Char.toLower)

/-! ## Token-refreshing filesystem model (`remote.py`) -/

/-- The mutable state `_update_auth` touches: the Authorization value in
`self.kwargs["headers"]`, the aiohttp session (`none` = invalidated, an
abstract id otherwise), and how many times a session was closed. -/
structure FSState where
  auth_header : Option String
  session : Option Nat
  closed_count : Nat
deriving DecidableEq, Repr

def bearer (t : String) : String := "Bearer " ++ t

/-- `_update_auth` with the token the source currently returns: if the
stored header already equals the new bearer value, return at once
(a concurrent caller refreshed); otherwise store the new value, close the
session if one is open and set it to `None`. -/
def update_auth (st : FSState) (new_token : String) : FSState :=
  if st.auth_header = some (bearer new_token) then st
  else
    { auth_header := some (bearer new_token)
      session := none
      closed_count :=
        st.closed_count + (match st.session with | some _ => 1 | none => 0) }

/-- What one attempt of the wrapped coroutine did: returned a value,
raised `aiohttp.ClientResponseError` with a status, or raised some other
exception. -/
inductive OpResult where
  | success (v : Nat)
  | httpError (status : Nat)
  | otherError (e : Nat)
deriving DecidableEq, Repr

/-- How `_run_with_refresh` ends: a value, or the exception it lets
propagate. -/
inductive OpOutcome where
  | ok (v : Nat)
  | httpRaised (status : Nat)
  | otherRaised (e : Nat)
deriving DecidableEq, Repr

def outcome_of : OpResult → OpOutcome
  | .success v => .ok v
  | .httpError s => .httpRaised s
  | .otherError e => .otherRaised e

structure RunResult where
  state : FSState
  outcome : OpOutcome
  attempts : Nat
deriving DecidableEq, Repr

/-- `_run_with_refresh`: run the coroutine once; only on a
`ClientResponseError` with status 401 refresh the token and run it exactly
once more, propagating whatever the retry does; any other HTTP status and
any non-HTTP exception propagate with no refresh and no retry. -/
def run_with_refresh (st : FSState) (new_token : String)
    (first second : OpResult) : RunResult :=
  match first with
  | .success v => ⟨st, .ok v, 1⟩
  | .httpError s =>
    if s = 401 then ⟨update_auth st new_token, outcome_of second, 2⟩
    else ⟨st, .httpRaised s, 1⟩
  | .otherError e => ⟨st, .otherRaised e, 1⟩

/-- `_cat_file` delegates to `_run_with_refresh(super()._cat_file, ...)`. -/
def cat_file (st : FSState) (new_token : String) (first second : OpResult) :
    RunResult :=
  run_with_refresh st new_token first second

/-- `_info` delegates to `_run_with_refresh(super()._info, ...)`. -/
def info_file (st : FSState) (new_token : String) (first second : OpResult) :
    RunResult :=
  run_with_refresh st new_token first second

/-- `_ls_real` delegates to `_run_with_refresh(super()._ls_real, ...)`. -/
def ls_real (st : FSState) (new_token : String) (first second : OpResult) :
    RunResult :=
  run_with_refresh st new_token first second

/-- `_exists` delegates to `_run_with_refresh(super()._exists, ...)`. -/
def exists_file (st : FSState) (new_token : String) (first second : OpResult) :
    RunResult :=
  run_with_refresh st new_token first second

/-! ## Post-search filter model (`filters.py`) -/

/-- A product as `_sample_interval_factory` sees it:
`sensing_start.timestamp()` in epoch seconds. -/
structure FProduct where
  pid : Nat
  sensing_start : Rat
deriving DecidableEq, Repr

/-- `math.floor(product.sensing_start.timestamp() / interval_secs)`. -/
def bucket_of (interval_secs : Rat) (p : FProduct) : Int :=
  ⌊p.sensing_start / interval_secs⌋

/-- The loop of `_filter`: walk the sorted products, keep the first product
of each not-yet-seen bucket. -/
def sample_interval_go (interval_secs : Rat) :
    List FProduct → List Int → List FProduct
  | [], _ => []
  | p :: rest, seen =>
    let b := bucket_of interval_secs p
    if b ∈ seen then sample_interval_go interval_secs rest seen
    else p :: sample_interval_go interval_secs rest (b :: seen)

/-- The comparison key of `sorted(products, key=lambda p: p.sensing_start)`. -/
def bySensing (p q : FProduct) : Prop := p.sensing_start ≤ q.sensing_start

instance : DecidableRel bySensing := fun p q =>
  inferInstanceAs (Decidable (p.sensing_start ≤ q.sensing_start))

instance : IsTotal FProduct bySensing := ⟨fun p q => le_total p.sensing_start q.sensing_start⟩

instance : IsTrans FProduct bySensing := ⟨fun _ _ _ h h' => le_trans h h'⟩

/-- The `sample_interval` built-in post-search filter
(`_sample_interval_factory(interval_hours)` applied to a product list):
empty in, empty out; otherwise sort ascending by sensing start (stably,
like Python's `sorted`) and keep the first product per bucket of
`interval_hours * 3600.0` seconds. -/
def sample_interval (interval_hours : Rat) (products : List FProduct) :
    List FProduct :=
  let interval_secs := interval_hours * 3600
  match products with
  | [] => []
  | _ :: _ =>
    sample_interval_go interval_secs (products.insertionSort bySensing) []

/-! ## Concrete instances used by witnesses and counterexamples -/

/-- 6000 products at sensing time 1. -/
def p1W : Product := ⟨0, 1⟩

/-- 6001 products at sensing time 3. -/
def p2W : Product := ⟨1, 3⟩

/-- A ground set of 12001 products split across the window `[0, 4]`. -/
def univW : List Product := List.replicate 6000 p1W ++ List.replicate 6001 p2W

/-- The window `[0, 4]` (with opaque non-time fields 7). -/
def fW : SFilters := ⟨some 0, some 4, 7⟩

/-- 10001 products at sensing time 0. -/
def univ3 : List Product := List.replicate 10001 ⟨0, 0⟩

/-- A filter bundle with no `dtstart`. -/
def f3 : SFilters := ⟨none, some 0, 0⟩

/-- 10001 products all at sensing time 5. -/
def univ4 : List Product := List.replicate 10001 ⟨0, 5⟩

/-- The empty window `[5, 5]`. -/
def f4 : SFilters := ⟨some 5, some 5, 0⟩

/-- The four correctness facts about a leaf list for the window `[a, b]`
(non-time fields `base`): all leaf totals fit the cap, the leaf queries
jointly match exactly what the whole window matches, the leaves tile
`[a, b]` in order, and the non-time fields are untouched. -/
def LeavesOK (univ : List Product) (a b : Rat) (base : Nat)
    (ls : List SFilters) : Prop :=
  (∀ g ∈ ls, countQ univ g ≤ 10000) ∧
  (∀ p : Product, inRange ⟨some a, some b, base⟩ p = true ↔
    ∃ g ∈ ls, inRange g p = true) ∧
  chainFrom a b ls ∧
  (∀ g ∈ ls, g.base = base)

/-- An existing state row (created at "T0"). -/
def rowA : Row :=
  ⟨"P1", "job", "C", 1, "m0", 0, PStatus.pending, "", "", "T0", "T0"⟩

/-- A record upserted over `rowA`, carrying a different `created_at`. -/
def recB : Row :=
  ⟨"P1", "job", "CX", 2, "m1", 5, PStatus.downloaded, "/d", "boom", "T9", "T8"⟩

/-- A terminal (verified) row of job "j". -/
def rowV : Row :=
  ⟨"P6", "j", "C", 3, "mv", 9, PStatus.verified, "/p", "", "T0", "T1"⟩

/-! ## Lemmas: search model -/

theorem countQ_append (l1 l2 : List Product) (f : SFilters) :
    countQ (l1 ++ l2) f = countQ l1 f + countQ l2 f := by
  simp [countQ, searchItems, List.filter_append]

theorem countQ_replicate (n : Nat) (p : Product) (f : SFilters) :
    countQ (List.replicate n p) f = if inRange f p then n else 0 := by
  simp only [countQ, searchItems, List.filter_replicate]
  split <;> simp

theorem inRange_midpoint_split (a b : Rat) (base : Nat) (p : Product) :
    inRange ⟨some a, some b, base⟩ p = true ↔
      (inRange (firstHalf ⟨some a, some b, base⟩ (midpointOf a b)) p = true ∨
        inRange (secondHalf ⟨some a, some b, base⟩ (midpointOf a b)) p = true) := by
  simp only [inRange, firstHalf, secondHalf, midpointOf, Bool.and_eq_true,
    decide_eq_true_eq]
  constructor
  · rintro ⟨h1, h2⟩
    rcases le_total p.sensing (a + (b - a) / 2) with h | h
    · exact Or.inl ⟨h1, h⟩
    · exact Or.inr ⟨h, h2⟩
  · rintro (⟨h1, h2⟩ | ⟨h1, h2⟩) <;> exact ⟨by linarith, by linarith⟩

theorem chainFrom_append (l1 : List SFilters) :
    ∀ (l2 : List SFilters) (x y z : Rat), chainFrom x y l1 → chainFrom y z l2 →
      chainFrom x z (l1 ++ l2) := by
  induction l1 with
  | nil =>
    intro l2 x y z h1 h2
    obtain rfl : x = y := h1
    simpa using h2
  | cons g rest ih =>
    intro l2 x y z h1 h2
    obtain ⟨hg, w, hw, hrest⟩ := h1
    exact ⟨hg, w, hw, ih l2 w y z hrest h2⟩

theorem leaves_ok_leaf (univ : List Product) (x y : Rat) (base : Nat)
    (hc : countQ univ ⟨some x, some y, base⟩ ≤ 10000) :
    LeavesOK univ x y base [⟨some x, some y, base⟩] := by
  refine ⟨?_, ?_, ?_, ?_⟩
  · intro g hg
    simp only [List.mem_singleton] at hg
    exact hg ▸ hc
  · intro p
    simp
  · exact ⟨rfl, y, rfl, rfl⟩
  · intro g hg
    simp only [List.mem_singleton] at hg
    exact hg ▸ rfl

theorem leaves_ok_combine (univ : List Product) (a b : Rat) (base : Nat)
    (l1 l2 : List SFilters)
    (H1 : LeavesOK univ a (midpointOf a b) base l1)
    (H2 : LeavesOK univ (midpointOf a b) b base l2) :
    LeavesOK univ a b base (l1 ++ l2) := by
  obtain ⟨c1, u1, ch1, b1⟩ := H1
  obtain ⟨c2, u2, ch2, b2⟩ := H2
  refine ⟨?_, ?_, ?_, ?_⟩
  · intro g hg
    rcases List.mem_append.mp hg with h | h
    · exact c1 g h
    · exact c2 g h
  · intro p
    rw [inRange_midpoint_split a b base p]
    constructor
    · rintro (h | h)
      · obtain ⟨g, hgmem, hgp⟩ := (u1 p).mp h
        exact ⟨g, List.mem_append.mpr (Or.inl hgmem), hgp⟩
      · obtain ⟨g, hgmem, hgp⟩ := (u2 p).mp h
        exact ⟨g, List.mem_append.mpr (Or.inr hgmem), hgp⟩
    · rintro ⟨g, hgmem, hgp⟩
      rcases List.mem_append.mp hgmem with h | h
      · exact Or.inl ((u1 p).mpr ⟨g, h, hgp⟩)
      · exact Or.inr ((u2 p).mpr ⟨g, h, hgp⟩)
  · exact chainFrom_append l1 l2 a (midpointOf a b) b ch1 ch2
  · intro g hg
    rcases List.mem_append.mp hg with h | h
    · exact b1 g h
    · exact b2 g h

theorem firstHalf_mk (a b m : Rat) (base : Nat) :
    firstHalf ⟨some a, some b, base⟩ m = ⟨some a, some m, base⟩ := rfl

theorem secondHalf_mk (a b m : Rat) (base : Nat) :
    secondHalf ⟨some a, some b, base⟩ m = ⟨some m, some b, base⟩ := rfl

theorem bisect_leaves_spec (univ : List Product) :
    ∀ (fuel : Nat) (a b : Rat) (base : Nat) (ls : List SFilters),
      bisect_leaves univ fuel ⟨some a, some b, base⟩ = some ls →
      LeavesOK univ a b base ls := by
  intro fuel
  induction fuel with
  | zero =>
    intro a b base ls h
    simp [bisect_leaves] at h
  | succ n ih =>
    intro a b base ls h
    rw [bisect_leaves] at h
    simp only [firstHalf_mk, secondHalf_mk] at h
    by_cases h1 : countQ univ ⟨some a, some (midpointOf a b), base⟩ ≤ 10000
    · rw [if_pos h1] at h
      by_cases h2 : countQ univ ⟨some (midpointOf a b), some b, base⟩ ≤ 10000
      · rw [if_pos h2] at h
        obtain rfl : [(⟨some a, some (midpointOf a b), base⟩ : SFilters)] ++
            [⟨some (midpointOf a b), some b, base⟩] = ls := by
          simpa using h
        exact leaves_ok_combine univ a b base _ _
          (leaves_ok_leaf univ a (midpointOf a b) base h1)
          (leaves_ok_leaf univ (midpointOf a b) b base h2)
      · rw [if_neg h2] at h
        cases hr2 : bisect_leaves univ n ⟨some (midpointOf a b), some b, base⟩ with
        | none => rw [hr2] at h; simp at h
        | some l2 =>
          rw [hr2] at h
          obtain rfl : [(⟨some a, some (midpointOf a b), base⟩ : SFilters)] ++ l2 = ls := by
            simpa using h
          exact leaves_ok_combine univ a b base _ _
            (leaves_ok_leaf univ a (midpointOf a b) base h1)
            (ih (midpointOf a b) b base l2 hr2)
    · rw [if_neg h1] at h
      cases hr1 : bisect_leaves univ n ⟨some a, some (midpointOf a b), base⟩ with
      | none => rw [hr1] at h; simp at h
      | some l1 =>
        rw [hr1] at h
        by_cases h2 : countQ univ ⟨some (midpointOf a b), some b, base⟩ ≤ 10000
        · rw [if_pos h2] at h
          obtain rfl : l1 ++ [(⟨some (midpointOf a b), some b, base⟩ : SFilters)] = ls := by
            simpa using h
          exact leaves_ok_combine univ a b base _ _
            (ih a (midpointOf a b) base l1 hr1)
            (leaves_ok_leaf univ (midpointOf a b) b base h2)
        · rw [if_neg h2] at h
          cases hr2 : bisect_leaves univ n ⟨some (midpointOf a b), some b, base⟩ with
          | none => rw [hr2] at h; simp at h
          | some l2 =>
            rw [hr2] at h
            obtain rfl : l1 ++ l2 = ls := by simpa using h
            exact leaves_ok_combine univ a b base _ _
              (ih a (midpointOf a b) base l1 hr1)
              (ih (midpointOf a b) b base l2 hr2)

theorem bisect_search_eq_of_leaves (univ : List Product) :
    ∀ (fuel : Nat) (f : SFilters) (ls : List SFilters),
      bisect_leaves univ fuel f = some ls →
      bisect_search univ fuel f = .ok ((ls.map (searchItems univ)).flatten) := by
  intro fuel
  induction fuel with
  | zero =>
    intro f ls h
    obtain ⟨s, e, base⟩ := f
    cases s <;> cases e <;> simp [bisect_leaves] at h
  | succ n ih =>
    intro f ls h
    obtain ⟨s, e, base⟩ := f
    cases s with
    | none => simp [bisect_leaves] at h
    | some a =>
      cases e with
      | none => simp [bisect_leaves] at h
      | some b =>
        rw [bisect_leaves] at h
        rw [bisect_search]
        simp only [firstHalf_mk, secondHalf_mk] at h ⊢
        by_cases h1 : countQ univ ⟨some a, some (midpointOf a b), base⟩ ≤ 10000
        · rw [if_pos h1] at h ⊢
          by_cases h2 : countQ univ ⟨some (midpointOf a b), some b, base⟩ ≤ 10000
          · rw [if_pos h2] at h ⊢
            obtain rfl : [(⟨some a, some (midpointOf a b), base⟩ : SFilters)] ++
                [⟨some (midpointOf a b), some b, base⟩] = ls := by simpa using h
            simp
          · rw [if_neg h2] at h ⊢
            cases hr2 : bisect_leaves univ n ⟨some (midpointOf a b), some b, base⟩ with
            | none => rw [hr2] at h; simp at h
            | some l2 =>
              rw [hr2] at h
              obtain rfl : [(⟨some a, some (midpointOf a b), base⟩ : SFilters)] ++ l2 = ls := by
                simpa using h
              rw [ih _ l2 hr2]
              simp
        · rw [if_neg h1] at h ⊢
          cases hr1 : bisect_leaves univ n ⟨some a, some (midpointOf a b), base⟩ with
          | none => rw [hr1] at h; simp at h
          | some l1 =>
            rw [hr1] at h
            rw [ih _ l1 hr1]
            by_cases h2 : countQ univ ⟨some (midpointOf a b), some b, base⟩ ≤ 10000
            · rw [if_pos h2] at h ⊢
              obtain rfl : l1 ++ [(⟨some (midpointOf a b), some b, base⟩ : SFilters)] = ls := by
                simpa using h
              simp
            · rw [if_neg h2] at h ⊢
              cases hr2 : bisect_leaves univ n ⟨some (midpointOf a b), some b, base⟩ with
              | none => rw [hr2] at h; simp at h
              | some l2 =>
                rw [hr2] at h
                obtain rfl : l1 ++ l2 = ls := by simpa using h
                rw [ih _ l2 hr2]
                simp

/-- C1: when the total exceeds 10000 and the recursion terminates with leaf
list `ls`, `iter_products` returns the concatenation, in range order, of
the leaf searches (truncated to the limit when given); every iterated leaf
has total at most 10000; the leaf item sets jointly cover exactly the full
matching set; the leaves tile `[a, b]` in order; and the non-time filter
fields are carried into every leaf unchanged. -/
theorem iter_products_bisection_correct (univ : List Product) (fuel : Nat)
    (f : SFilters) (limit : Option Nat) (a b : Rat) (ls : List SFilters)
    (ha : f.dtstart = some a) (hb : f.dtend = some b)
    (htot : 10000 < countQ univ f)
    (hls : bisect_leaves univ fuel f = some ls) :
    iter_products univ fuel f limit =
        .ok (truncateTo limit ((ls.map (searchItems univ)).flatten)) ∧
      (∀ g ∈ ls, countQ univ g ≤ 10000) ∧
      (∀ p : Product, p ∈ searchItems univ f ↔ ∃ g ∈ ls, p ∈ searchItems univ g) ∧
      chainFrom a b ls ∧
      (∀ g ∈ ls, g.base = f.base) := by
  have hfeq : f = ⟨some a, some b, f.base⟩ := by
    obtain ⟨s, e, base⟩ := f
    obtain rfl : s = some a := ha
    obtain rfl : e = some b := hb
    rfl
  have hspec : LeavesOK univ a b f.base ls := by
    refine bisect_leaves_spec univ fuel a b f.base ls ?_
    rw [← hfeq]; exact hls
  obtain ⟨hcap, hunion, hchain, hbase⟩ := hspec
  refine ⟨?_, hcap, ?_, hchain, hbase⟩
  · rw [iter_products, if_neg (by omega), bisect_search_eq_of_leaves univ fuel f ls hls]
  · intro p
    have hiff := hunion p
    rw [← hfeq] at hiff
    constructor
    · intro hp
      have hmem := List.mem_filter.mp hp
      obtain ⟨g, hg, hgp⟩ := hiff.mp hmem.2
      exact ⟨g, hg, List.mem_filter.mpr ⟨hmem.1, hgp⟩⟩
    · rintro ⟨g, hg, hgp⟩
      have hmem := List.mem_filter.mp hgp
      exact List.mem_filter.mpr ⟨hmem.1, hiff.mpr ⟨g, hg, hmem.2⟩⟩

theorem midW : midpointOf 0 4 = 2 := by norm_num [midpointOf]

theorem countQ_univW (x y : Rat) (base : Nat) :
    countQ univW ⟨some x, some y, base⟩ =
      (if x ≤ 1 ∧ 1 ≤ y then 6000 else 0) + (if x ≤ 3 ∧ 3 ≤ y then 6001 else 0) := by
  rw [univW, countQ_append, countQ_replicate, countQ_replicate]
  simp [inRange, p1W, p2W]

theorem countQ_univW_big : 10000 < countQ univW fW := by
  rw [fW, countQ_univW]
  norm_num

theorem leavesW : bisect_leaves univW 1 fW =
    some [⟨some 0, some 2, 7⟩, ⟨some 2, some 4, 7⟩] := by
  rw [fW, bisect_leaves]
  simp only [firstHalf_mk, secondHalf_mk, midW]
  rw [if_pos (by rw [countQ_univW]; norm_num), if_pos (by rw [countQ_univW]; norm_num)]
  rfl

/-- Witness for C1 at a 12001-product catalog over the window `[0, 4]`:
one bisection step yields the two leaves `[0, 2]` and `[2, 4]`. -/
theorem iter_products_bisection_correct_witness :
    10000 < countQ univW fW ∧
      iter_products univW 1 fW (some 12000) =
        .ok (truncateTo (some 12000)
          (([(⟨some 0, some 2, 7⟩ : SFilters), ⟨some 2, some 4, 7⟩].map
            (searchItems univW)).flatten)) :=
  ⟨countQ_univW_big,
    (iter_products_bisection_correct univW 1 fW (some 12000) 0 4
      [⟨some 0, some 2, 7⟩, ⟨some 2, some 4, 7⟩] rfl rfl countQ_univW_big leavesW).1⟩

/-- C3: when the total exceeds 10000 and the filter bundle lacks a start or
an end of the time range, `iter_products` fails with the invalid-input
error (`ValueError("Date range (dtstart, dtend) is required ...")`) and
returns no products. -/
theorem iter_products_missing_range_invalid (univ : List Product)
    (fuel : Nat) (f : SFilters) (limit : Option Nat)
    (htot : 10000 < countQ univ f)
    (hmiss : f.dtstart = none ∨ f.dtend = none) :
    iter_products univ fuel f limit = .invalidInput := by
  have hbs : bisect_search univ fuel f = .invalidInput := by
    obtain ⟨s, e, base⟩ := f
    rcases hmiss with h | h
    · obtain rfl : s = none := h
      cases e <;> cases fuel <;> rfl
    · obtain rfl : e = none := h
      cases s <;> cases fuel <;> rfl
  rw [iter_products, if_neg (by omega), hbs]

theorem countQ_univ3 : countQ univ3 f3 = 10001 := by
  rw [univ3, f3, countQ_replicate]
  simp [inRange]

/-- Witness for C3: 10001 products and a filter with `dtstart` unset. -/
theorem iter_products_missing_range_invalid_witness :
    10000 < countQ univ3 f3 ∧ (f3.dtstart = none ∨ f3.dtend = none) ∧
      iter_products univ3 5 f3 none = BOut.invalidInput :=
  ⟨by rw [countQ_univ3]; norm_num, Or.inl rfl,
    iter_products_missing_range_invalid univ3 5 f3 none
      (by rw [countQ_univ3]; norm_num) (Or.inl rfl)⟩

theorem empty_range_halves (t : Rat) (base : Nat) :
    firstHalf ⟨some t, some t, base⟩ (midpointOf t t) = ⟨some t, some t, base⟩ ∧
      secondHalf ⟨some t, some t, base⟩ (midpointOf t t) = ⟨some t, some t, base⟩ := by
  have hm : midpointOf t t = t := by simp [midpointOf]
  rw [firstHalf_mk, secondHalf_mk, hm]
  exact ⟨rfl, rfl⟩

/-- An empty window whose count still exceeds the cap is bisected into two
copies of itself, so the recursion spends all its fuel without producing a
result, at every recursion budget. -/
theorem bisect_empty_range_fuelOut (univ : List Product) (t : Rat)
    (base : Nat) :
    ∀ fuel : Nat, 10000 < countQ univ ⟨some t, some t, base⟩ →
      bisect_search univ fuel ⟨some t, some t, base⟩ = .fuelOut := by
  intro fuel
  induction fuel with
  | zero => intro _; rfl
  | succ n ih =>
    intro h
    obtain ⟨hf1, hf2⟩ := empty_range_halves t base
    rw [bisect_search]
    simp only [hf1, hf2]
    rw [if_neg (by omega), ih h]

/-- C4 (amended): for an empty time range (`dtstart = dtend`) whose total
exceeds 10000, the bisection never terminates: the midpoint of the empty
window is the window's own endpoint, both halves equal the original query,
and the recursion descends forever (it exhausts every recursion budget
without producing a leaf). -/
theorem bisect_search_empty_range_diverges (univ : List Product)
    (f : SFilters) (t : Rat) (fuel : Nat)
    (hs : f.dtstart = some t) (he : f.dtend = some t)
    (htot : 10000 < countQ univ f) :
    bisect_search univ fuel f = .fuelOut := by
  have hfeq : f = ⟨some t, some t, f.base⟩ := by
    obtain ⟨s, e, base⟩ := f
    obtain rfl : s = some t := hs
    obtain rfl : e = some t := he
    rfl
  rw [hfeq]
  exact bisect_empty_range_fuelOut univ t f.base fuel (by rw [← hfeq]; exact htot)

theorem countQ_univ4 : countQ univ4 f4 = 10001 := by
  rw [univ4, f4, countQ_replicate]
  simp [inRange]

/-- Witness for the amended C4 at 10001 products all at time 5 and the
empty window `[5, 5]`. -/
theorem bisect_search_empty_range_diverges_witness :
    10000 < countQ univ4 f4 ∧ bisect_search univ4 7 f4 = BOut.fuelOut :=
  ⟨by rw [countQ_univ4]; norm_num,
    bisect_search_empty_range_diverges univ4 f4 5 7 rfl rfl
      (by rw [countQ_univ4]; norm_num)⟩

/-- Counterexample to C4 as stated: with 10001 products all at sensing
time 5 and the empty window `[5, 5]`, the bisection does not terminate
with a single leaf — it returns no result at any recursion depth (and at
depth 1 no leaf list exists), because the empty range is subdivided into
itself. -/
theorem bisect_empty_range_cex :
    f4.dtstart = f4.dtend ∧ 10000 < countQ univ4 f4 ∧
      bisect_leaves univ4 1 f4 = none ∧
      ∀ fuel : Nat, bisect_search univ4 fuel f4 = BOut.fuelOut := by
  have hc : 10000 < countQ univ4 f4 := by rw [countQ_univ4]; norm_num
  refine ⟨rfl, hc, ?_, fun fuel => bisect_empty_range_fuelOut univ4 5 0 fuel hc⟩
  rw [f4, bisect_leaves]
  obtain ⟨hf1, hf2⟩ := empty_range_halves 5 0
  simp only [hf1, hf2]
  rw [if_neg (by rw [← f4]; omega)]
  rfl

/-! ## Lemmas: state store -/

/-- C5: after `reset_stale_downloads(job)` no row of the job is
`downloading`; every `downloading` row of the job became `pending` (with a
fresh `updated_at`); every other row is unchanged, position by position;
the table keeps its length; and the returned count is the number of rows
that were `downloading` for the job. -/
theorem reset_stale_downloads_spec (db : StateDB) (job now : String) :
    (∀ r ∈ (reset_stale_downloads db job now).1,
        r.job_name = job → r.status ≠ PStatus.downloading) ∧
      (∀ (i : Nat) (r : Row), db[i]? = some r →
        (r.job_name = job ∧ r.status = PStatus.downloading →
          (reset_stale_downloads db job now).1[i]? =
            some { r with status := PStatus.pending, updated_at := now }) ∧
        (¬(r.job_name = job ∧ r.status = PStatus.downloading) →
          (reset_stale_downloads db job now).1[i]? = some r)) ∧
      (reset_stale_downloads db job now).1.length = db.length ∧
      (reset_stale_downloads db job now).2 =
        (db.filter (fun r =>
          r.job_name == job && r.status == PStatus.downloading)).length := by
  refine ⟨?_, ?_, ?_, ?_⟩
  · intro r hr
    simp only [reset_stale_downloads, List.mem_map] at hr
    obtain ⟨r0, _, rfl⟩ := hr
    by_cases hc : (r0.job_name == job && r0.status == PStatus.downloading) = true
    · rw [if_pos hc]
      intro _
      simp
    · rw [if_neg hc]
      intro hj
      simp only [Bool.and_eq_true, beq_iff_eq, not_and] at hc
      intro hs
      exact (hc hj) hs
  · intro i r hi
    constructor
    · rintro ⟨hj, hs⟩
      simp [reset_stale_downloads, List.getElem?_map, hi, hj, hs]
    · intro hnot
      have hc : (r.job_name == job && r.status == PStatus.downloading) = false := by
        by_contra hx
        simp only [Bool.not_eq_false, Bool.and_eq_true, beq_iff_eq] at hx
        exact hnot ⟨hx.1, hx.2⟩
      simp only [reset_stale_downloads, List.getElem?_map, hi, Option.map_some', hc,
        Bool.false_eq_true, if_false]
  · simp [reset_stale_downloads]
  · simp [reset_stale_downloads, List.countP_eq_length_filter]

/-- `db_get` commutes with a row transformation that keeps the key
columns. -/
theorem db_get_map_keyfix (db : StateDB) (g : Row → Row)
    (hg : ∀ r, (g r).product_id = r.product_id ∧ (g r).job_name = r.job_name)
    (pid job : String) :
    db_get (db.map g) pid job = (db_get db pid job).map g := by
  induction db with
  | nil => rfl
  | cons r rest ih =>
    simp only [List.map_cons, db_get, List.find?_cons] at ih ⊢
    rw [(hg r).1, (hg r).2]
    cases hpr : (r.product_id == pid && r.job_name == job) with
    | true => rfl
    | false => exact ih

/-- C9: upserting a record whose key already exists rewrites exactly the
mutable columns (size_kb, md5, bytes_downloaded, status, download_path,
error_message) and `updated_at`; the stored `created_at` (and
`collection`) survive even when the supplied record carries different
values, and a subsequent `get` returns the newly written row. -/
theorem upsert_updates_mutable_keeps_created_at (db : StateDB) (rec : Row)
    (now : String) (old : Row)
    (hold : db_get db rec.product_id rec.job_name = some old) :
    db_get (db_upsert db rec now) rec.product_id rec.job_name =
      some { old with
        size_kb := rec.size_kb
        md5 := rec.md5
        bytes_downloaded := rec.bytes_downloaded
        status := rec.status
        download_path := rec.download_path
        error_message := rec.error_message
        updated_at := now } := by
  have hold' : List.find?
      (fun r => r.product_id == rec.product_id && r.job_name == rec.job_name) db =
      some old := hold
  have hpred' : (old.product_id == rec.product_id &&
      old.job_name == rec.job_name) = true :=
    @List.find?_some Row
      (fun r => r.product_id == rec.product_id && r.job_name == rec.job_name)
      old db hold'
  rw [db_upsert]
  rw [if_pos (by rw [hold]; rfl)]
  rw [db_get_map_keyfix db _
    (fun r => by split <;> exact ⟨rfl, rfl⟩) rec.product_id rec.job_name]
  rw [hold]
  simp [hpred']
  intro hcontra
  simp only [Bool.and_eq_true, beq_iff_eq] at hpred'
  exact absurd hpred'.2 (hcontra hpred'.1)

/-- Witness for C9: upserting `recB` over `rowA` updates the mutable
columns and `updated_at` but keeps the stored `created_at` "T0" (not
`recB`'s "T9") and the stored collection. -/
theorem upsert_updates_mutable_keeps_created_at_witness :
    db_get (db_upsert [rowA] recB "T2") "P1" "job" =
      some ⟨"P1", "job", "C", 2, "m1", 5, PStatus.downloaded, "/d", "boom",
        "T0", "T2"⟩ :=
  upsert_updates_mutable_keeps_created_at [rowA] recB "T2" rowA (by decide)

theorem find?_append_some {p : Row → Bool} {l1 : List Row} {a : Row}
    (l2 : List Row) (h : l1.find? p = some a) :
    (l1 ++ l2).find? p = some a := by
  induction l1 with
  | nil => simp [List.find?] at h
  | cons x rest ih =>
    simp only [List.cons_append, List.find?_cons] at h ⊢
    cases hx : p x with
    | true => rw [hx] at h; simpa using h
    | false => rw [hx] at h; exact ih h

theorem foldl_preserve {β : Type} (P : StateDB → Prop)
    (step : StateDB → β → StateDB) :
    ∀ l : List β, (∀ d x, x ∈ l → P d → P (step d x)) →
      ∀ d, P d → P (l.foldl step d) := by
  intro l
  induction l with
  | nil => intro _ d hd; exact hd
  | cons x rest ih =>
    intro hstep d hd
    exact ih (fun d' y hy hd' => hstep d' y (List.mem_cons_of_mem x hy) hd')
      (step d x) (hstep d x (List.mem_cons_self x rest) hd)

/-- An upsert of a record with a different key leaves a looked-up row in
place. -/
theorem db_get_upsert_other (db : StateDB) (rec : Row) (now pid j : String)
    (r0 : Row) (hne : ¬(rec.product_id = pid ∧ rec.job_name = j))
    (hget : db_get db pid j = some r0) :
    db_get (db_upsert db rec now) pid j = some r0 := by
  rw [db_upsert]
  split
  · rw [db_get_map_keyfix db _
      (fun r => by split <;> exact ⟨rfl, rfl⟩) pid j, hget]
    simp only [Option.map_some']
    have hpred : (r0.product_id == pid && r0.job_name == j) = true :=
      @List.find?_some Row (fun r => r.product_id == pid && r.job_name == j)
        r0 db hget
    simp only [Bool.and_eq_true, beq_iff_eq] at hpred
    have hcond : (r0.product_id == rec.product_id &&
        r0.job_name == rec.job_name) = false := by
      rw [Bool.and_eq_false_iff]
      by_cases h1 : r0.product_id = rec.product_id
      · right
        simp only [beq_eq_false_iff_ne, ne_eq]
        intro h2
        exact hne ⟨h1 ▸ hpred.1.symm ▸ rfl, h2 ▸ hpred.2.symm ▸ rfl⟩
      · left
        simpa using h1
    rw [hcond]
    rfl
  · exact find?_append_some _ hget

/-- An upsert keeps the key set duplicate-free. -/
theorem db_upsert_keys_nodup (db : StateDB) (rec : Row) (now : String)
    (hnd : keys_nodup db) : keys_nodup (db_upsert db rec now) := by
  rw [db_upsert]
  split
  · have : (db.map (fun r =>
        if (r.product_id == rec.product_id && r.job_name == rec.job_name) = true then
          { r with
            size_kb := rec.size_kb
            md5 := rec.md5
            bytes_downloaded := rec.bytes_downloaded
            status := rec.status
            download_path := rec.download_path
            error_message := rec.error_message
            updated_at := now }
        else r)).map rowKey = db.map rowKey := by
      rw [List.map_map]
      refine List.map_congr_left ?_
      intro r _
      simp only [Function.comp_apply, rowKey]
      split <;> rfl
    unfold keys_nodup
    rw [this]
    exact hnd
  · rename_i hnone
    have hnone' : db_get db rec.product_id rec.job_name = none := by
      cases hv : db_get db rec.product_id rec.job_name with
      | none => rfl
      | some v => rw [hv] at hnone; simp at hnone
    have hall := List.find?_eq_none.mp hnone'
    unfold keys_nodup
    rw [List.map_append]
    simp only [List.map_cons, List.map_nil]
    rw [List.nodup_append]
    refine ⟨hnd, List.nodup_singleton _, ?_⟩
    intro k hk hk2
    simp only [List.mem_singleton] at hk2
    subst hk2
    obtain ⟨r, hr, hkey⟩ := List.mem_map.mp hk
    have : (r.product_id == rec.product_id && r.job_name == rec.job_name) = true := by
      simp only [rowKey, Prod.mk.injEq] at hkey
      simp [hkey.1, hkey.2]
    exact hall r hr this

/-- Registration never disturbs a row that is already in the table. -/
theorem register_product_preserves_get (fnm : String → String → Bool)
    (entries : Option (List String)) (job coll now pid j : String)
    (r0 : Row) (db : StateDB) (p : RegProduct)
    (hget : db_get db pid j = some r0) :
    db_get (register_product fnm entries job coll now db p) pid j = some r0 := by
  have hkey : ∀ (key : String) (size : Rat) (d : StateDB),
      db_get d pid j = some r0 →
      db_get (register_key job coll now key size d) pid j = some r0 := by
    intro key size d hd
    rw [register_key]
    by_cases hx : (db_get d key job).isSome
    · rw [if_pos hx]; exact hd
    · rw [if_neg hx]
      refine db_get_upsert_other d _ now pid j r0 ?_ hd
      rintro ⟨h1, h2⟩
      rw [show (mk_pending_record key job coll size).product_id = key from rfl] at h1
      rw [show (mk_pending_record key job coll size).job_name = job from rfl] at h2
      rw [h1, h2, hd] at hx
      simp at hx
  rw [register_product.eq_def]
  cases entries with
  | none => exact hkey p.pid p.size_kb db hget
  | some pats =>
    show db_get (register_entries fnm pats job coll now p.pid p.entry_list db)
      pid j = some r0
    rw [register_entries.eq_def]
    cases p.entry_list with
    | none => exact hget
    | some es =>
      simp only
      split
      · exact hget
      · exact foldl_preserve (fun d => db_get d pid j = some r0) _ _
          (fun d e _ hd => hkey (encode_entry_key p.pid e) 0 d hd) db hget

/-- Registration keeps the key set duplicate-free. -/
theorem register_product_keys_nodup (fnm : String → String → Bool)
    (entries : Option (List String)) (job coll now : String)
    (db : StateDB) (p : RegProduct) (hnd : keys_nodup db) :
    keys_nodup (register_product fnm entries job coll now db p) := by
  have hkey : ∀ (key : String) (size : Rat) (d : StateDB),
      keys_nodup d → keys_nodup (register_key job coll now key size d) := by
    intro key size d hd
    rw [register_key]
    split
    · exact hd
    · exact db_upsert_keys_nodup d _ now hd
  rw [register_product.eq_def]
  cases entries with
  | none => exact hkey p.pid p.size_kb db hnd
  | some pats =>
    show keys_nodup (register_entries fnm pats job coll now p.pid p.entry_list db)
    rw [register_entries.eq_def]
    cases p.entry_list with
    | none => exact hnd
    | some es =>
      simp only
      split
      · exact hnd
      · exact foldl_preserve keys_nodup _ _
          (fun d e _ hd => hkey (encode_entry_key p.pid e) 0 d hd) db hnd

/-- With duplicate-free keys, looking up a member row's key finds that
row. -/
theorem db_get_of_mem_nodup (db : StateDB) (r : Row)
    (hnd : keys_nodup db) (hmem : r ∈ db) :
    db_get db r.product_id r.job_name = some r := by
  induction db with
  | nil => cases hmem
  | cons x rest ih =>
    unfold keys_nodup at hnd
    simp only [List.map_cons, List.nodup_cons] at hnd
    rcases List.mem_cons.mp hmem with rfl | hm
    · have hpt : (r.product_id == r.product_id && r.job_name == r.job_name) = true := by
        simp
      rw [db_get, List.find?_cons, hpt]
    · have hne : (x.product_id == r.product_id && x.job_name == r.job_name) = false := by
        rw [Bool.and_eq_false_iff]
        by_cases h1 : x.product_id = r.product_id
        · right
          simp only [beq_eq_false_iff_ne, ne_eq]
          intro h2
          exact hnd.1 (by
            rw [show rowKey x = rowKey r from by simp [rowKey, h1, h2]]
            exact List.mem_map_of_mem rowKey hm)
        · left
          simpa using h1
      rw [db_get, List.find?_cons, hne]
      exact ih hnd.2 hm

/-- `update_status` on another key leaves a looked-up row unchanged. -/
theorem db_get_update_status_other (db : StateDB) (k j2 : String)
    (u : StatusUpdate) (now pid j : String) (r0 : Row)
    (hne : ¬(k = pid ∧ j2 = j)) (hget : db_get db pid j = some r0) :
    db_get (update_status db k j2 u now) pid j = some r0 := by
  rw [update_status]
  rw [db_get_map_keyfix db _
    (fun r => by split <;> exact ⟨rfl, rfl⟩) pid j, hget]
  simp only [Option.map_some']
  have hpred : (r0.product_id == pid && r0.job_name == j) = true :=
    @List.find?_some Row (fun r => r.product_id == pid && r.job_name == j)
      r0 db hget
  simp only [Bool.and_eq_true, beq_iff_eq] at hpred
  have hcond : (r0.product_id == k && r0.job_name == j2) = false := by
    rw [Bool.and_eq_false_iff]
    by_cases h1 : r0.product_id = k
    · right
      simp only [beq_eq_false_iff_ne, ne_eq]
      intro h2
      exact hne ⟨h1 ▸ hpred.1 ▸ rfl, h2 ▸ hpred.2 ▸ rfl⟩
    · left
      simpa using h1
  rw [hcond]
  rfl

/-- A resumable row is a table member whose status is PENDING, DOWNLOADING
or FAILED for the job. -/
theorem mem_get_resumable (db : StateDB) (job : String) (r : Row)
    (h : r ∈ get_resumable db job) :
    r ∈ db ∧ r.job_name = job ∧
      (r.status = PStatus.pending ∨ r.status = PStatus.downloading ∨
        r.status = PStatus.failed) := by
  rw [get_resumable] at h
  obtain ⟨hmem, hcond⟩ := List.mem_filter.mp h
  simp only [Bool.and_eq_true, Bool.or_eq_true, beq_iff_eq] at hcond
  exact ⟨hmem, hcond.1, by tauto⟩

/-- C6: `download_all` neither transfers nor touches a row that is already
`verified` or `processed`: such a row survives the whole run — the
registration loop never upserts over an existing row, the resumable set
selects only `pending`, `downloading` and `failed` rows, and every status
write of `_download_one` targets the key of a resumable row, which (keys
being unique) is never the terminal row's key. -/
theorem download_all_preserves_terminal (fnm : String → String → Bool)
    (entries : Option (List String)) (products : List RegProduct)
    (job coll now : String) (outcome : Row → List StatusUpdate)
    (db : StateDB) (pid j : String) (r0 : Row)
    (hnd : keys_nodup db)
    (hget : db_get db pid j = some r0)
    (hterm : r0.status = PStatus.verified ∨ r0.status = PStatus.processed) :
    db_get (download_all_db fnm entries products job coll now outcome db)
        pid j = some r0 ∧
      (∀ r ∈ get_resumable db job,
        r.status ≠ PStatus.verified ∧ r.status ≠ PStatus.processed) := by
  constructor
  · rw [download_all_db]
    have h1 : db_get
        (products.foldl (register_product fnm entries job coll now) db)
        pid j = some r0 :=
      foldl_preserve (fun d => db_get d pid j = some r0) _ products
        (fun d p _ hd => register_product_preserves_get fnm entries job coll
          now pid j r0 d p hd) db hget
    have hnd1 : keys_nodup
        (products.foldl (register_product fnm entries job coll now) db) :=
      foldl_preserve keys_nodup _ products
        (fun d p _ hd => register_product_keys_nodup fnm entries job coll
          now d p hd) db hnd
    refine foldl_preserve (fun d => db_get d pid j = some r0) _ _ ?_ _ h1
    intro d r hr hd
    have hprops := mem_get_resumable _ job r hr
    have hrkey : ¬(r.product_id = pid ∧ r.job_name = j) := by
      rintro ⟨hk1, hk2⟩
      have := db_get_of_mem_nodup _ r hnd1 hprops.1
      rw [hk1, hk2, h1] at this
      obtain rfl : r = r0 := (Option.some.inj this).symm
      rcases hterm with hv | hp
      · rcases hprops.2.2 with h | h | h <;> rw [hv] at h <;> cases h
      · rcases hprops.2.2 with h | h | h <;> rw [hp] at h <;> cases h
    refine foldl_preserve (fun d' => db_get d' pid j = some r0) _ _ ?_ d hd
    intro d' u _ hd'
    exact db_get_update_status_other d' r.product_id r.job_name u now pid j
      r0 hrkey hd'
  · intro r hr
    have hprops := mem_get_resumable db job r hr
    rcases hprops.2.2 with h | h | h <;> rw [h] <;> exact ⟨by simp, by simp⟩

/-- Witness for C6: a job whose only row is already `verified` is left
untouched by a run that would otherwise re-register and download it. -/
theorem download_all_preserves_terminal_witness :
    db_get (download_all_db (fun _ _ => true) none [⟨"P6", 3, none⟩] "j" "C"
        "T2" (fun _ => [statusOnly PStatus.downloading]) [rowV]) "P6" "j" =
      some rowV :=
  (download_all_preserves_terminal (fun _ _ => true) none [⟨"P6", 3, none⟩]
    "j" "C" "T2" (fun _ => [statusOnly PStatus.downloading]) [rowV] "P6" "j"
    rowV (by unfold keys_nodup; decide) (by decide) (Or.inl rfl)).1

/-! ## Lemmas: downloader retry loop -/

/-- C2: in whole-product mode with verification enabled, when the transfer
completes but the digest of the transferred bytes differs from the
non-empty catalog digest, `_download_one` marks the row `downloading`,
`downloaded`, then `failed` with message "MD5 verification failed" (which
mentions md5 case-insensitively), uses exactly one transfer attempt — the
mismatch triggers no retry, whatever `max_retries` allows — and the
transferred file stays on disk. -/
theorem download_one_md5_mismatch (md5v : String) (c : List Nat)
    (hash : List Nat → String) (max_retries : Nat)
    (script : Nat → TransferOutcome)
    (hs0 : script 0 = TransferOutcome.completed c)
    (hne : md5v ≠ "") (hmm : hash c ≠ md5v) :
    download_one true none (some md5v) hash max_retries script =
      ⟨[statusOnly PStatus.downloading,
          ⟨PStatus.downloaded, some "download_path", some c.length, none⟩,
          statusWithError PStatus.failed "MD5 verification failed"],
        some c, 1⟩ ∧
      mentions "md5" "MD5 verification failed" = true := by
  constructor
  · rw [download_one, download_one_loop, hs0]
    have hv : verify_md5 hash (some md5v) c = false := by
      rw [verify_md5, if_neg hne]
      exact beq_eq_false_iff_ne.mpr hmm
    simp [hv]
  · decide

/-- Witness for C2: catalog digest "bb", transferred bytes hashing to
"aa". -/
theorem download_one_md5_mismatch_witness :
    download_one true none (some "bb") (fun _ => "aa") 3
        (fun _ => TransferOutcome.completed [1, 2, 3]) =
      ⟨[statusOnly PStatus.downloading,
          ⟨PStatus.downloaded, some "download_path", some 3, none⟩,
          statusWithError PStatus.failed "MD5 verification failed"],
        some [1, 2, 3], 1⟩ ∧
      mentions "md5" "MD5 verification failed" = true :=
  download_one_md5_mismatch "bb" [1, 2, 3] (fun _ => "aa") 3
    (fun _ => TransferOutcome.completed [1, 2, 3]) rfl (by decide) (by decide)

/-! ## Lemmas: token-refreshing filesystem -/

/-- C7 (amended): a first attempt failing with HTTP 401 triggers one
refresh and exactly one retry whose outcome (value or exception)
propagates; after the refresh the stored Authorization header equals
"Bearer " + the current token, and the session is invalidated whenever the
stored header did not already carry that value (when it did — a concurrent
caller refreshed first — the session is left untouched).  A first attempt
failing with any other HTTP status, or with a non-HTTP exception, or
succeeding, ends after that single attempt with the state unchanged. -/
theorem run_with_refresh_policy (st : FSState) (t : String)
    (first second : OpResult) :
    (first = OpResult.httpError 401 →
      run_with_refresh st t first second =
          ⟨update_auth st t, outcome_of second, 2⟩ ∧
        (update_auth st t).auth_header = some (bearer t) ∧
        (st.auth_header ≠ some (bearer t) → (update_auth st t).session = none)) ∧
      (∀ s : Nat, s ≠ 401 → first = OpResult.httpError s →
        run_with_refresh st t first second = ⟨st, OpOutcome.httpRaised s, 1⟩) ∧
      (∀ e : Nat, first = OpResult.otherError e →
        run_with_refresh st t first second = ⟨st, OpOutcome.otherRaised e, 1⟩) ∧
      (∀ v : Nat, first = OpResult.success v →
        run_with_refresh st t first second = ⟨st, OpOutcome.ok v, 1⟩) := by
  refine ⟨?_, ?_, ?_, ?_⟩
  · rintro rfl
    refine ⟨by simp [run_with_refresh], ?_, ?_⟩
    · rw [update_auth]
      split
      · rename_i heq
        rw [heq]
      · rfl
    · intro hne
      rw [update_auth, if_neg hne]
  · rintro s hs rfl
    simp [run_with_refresh, hs]
  · rintro e rfl
    rfl
  · rintro v rfl
    rfl

/-- Counterexample to C7 as stated: when the stored header already equals
the new bearer value (the token source still returns "t"), the 401 path
refreshes and retries but does not invalidate the session — it stays
open. -/
theorem run_with_refresh_no_invalidate_cex :
    (run_with_refresh ⟨some "Bearer t", some 0, 0⟩ "t"
        (OpResult.httpError 401) (OpResult.success 7)).attempts = 2 ∧
      (run_with_refresh ⟨some "Bearer t", some 0, 0⟩ "t"
          (OpResult.httpError 401) (OpResult.success 7)).state.auth_header =
        some (bearer "t") ∧
      (run_with_refresh ⟨some "Bearer t", some 0, 0⟩ "t"
          (OpResult.httpError 401) (OpResult.success 7)).state.session ≠
        none ∧
      (run_with_refresh ⟨some "Bearer t", some 0, 0⟩ "t"
          (OpResult.httpError 401) (OpResult.success 7)).state.closed_count =
        0 := by
  decide

/-! ## Lemmas: temporal subsampling filter -/

theorem sample_go_mem (s : Rat) :
    ∀ (l : List FProduct) (seen : List Int) (p : FProduct),
      p ∈ sample_interval_go s l seen → p ∈ l := by
  intro l
  induction l with
  | nil => intro seen p hp; cases hp
  | cons x rest ih =>
    intro seen p hp
    rw [sample_interval_go] at hp
    by_cases hb : bucket_of s x ∈ seen
    · rw [if_pos hb] at hp
      exact List.mem_cons_of_mem x (ih seen p hp)
    · rw [if_neg hb] at hp
      rcases List.mem_cons.mp hp with rfl | hm
      · exact List.mem_cons_self _ _
      · exact List.mem_cons_of_mem _ (ih _ p hm)

theorem sample_go_not_seen (s : Rat) :
    ∀ (l : List FProduct) (seen : List Int) (p : FProduct),
      p ∈ sample_interval_go s l seen → bucket_of s p ∉ seen := by
  intro l
  induction l with
  | nil => intro seen p hp; cases hp
  | cons x rest ih =>
    intro seen p hp
    rw [sample_interval_go] at hp
    by_cases hb : bucket_of s x ∈ seen
    · rw [if_pos hb] at hp
      exact ih seen p hp
    · rw [if_neg hb] at hp
      rcases List.mem_cons.mp hp with rfl | hm
      · exact hb
      · intro hmem
        exact ih _ p hm (List.mem_cons_of_mem _ hmem)

theorem sample_go_pairwise (s : Rat) :
    ∀ (l : List FProduct) (seen : List Int),
      (sample_interval_go s l seen).Pairwise
        (fun p q => bucket_of s p ≠ bucket_of s q) := by
  intro l
  induction l with
  | nil => intro seen; exact List.Pairwise.nil
  | cons x rest ih =>
    intro seen
    rw [sample_interval_go]
    by_cases hb : bucket_of s x ∈ seen
    · rw [if_pos hb]
      exact ih seen
    · rw [if_neg hb]
      refine List.Pairwise.cons ?_ (ih _)
      intro q hq hbad
      exact sample_go_not_seen s rest _ q hq
        (hbad ▸ List.mem_cons_self _ seen)

theorem sample_go_min (s : Rat) :
    ∀ (l : List FProduct) (seen : List Int), l.Sorted bySensing →
      ∀ p ∈ sample_interval_go s l seen, ∀ q ∈ l,
        bucket_of s q = bucket_of s p → p.sensing_start ≤ q.sensing_start := by
  intro l
  induction l with
  | nil => intro seen _ p hp; cases hp
  | cons x rest ih =>
    intro seen hsorted p hp q hq hbq
    have hxle : ∀ r ∈ rest, bySensing x r := List.rel_of_sorted_cons hsorted
    have hrest : rest.Sorted bySensing := List.Sorted.of_cons hsorted
    rw [sample_interval_go] at hp
    by_cases hb : bucket_of s x ∈ seen
    · rw [if_pos hb] at hp
      rcases List.mem_cons.mp hq with rfl | hqm
      · exact absurd (hbq ▸ hb) (sample_go_not_seen s rest seen p hp)
      · exact ih seen hrest p hp q hqm hbq
    · rw [if_neg hb] at hp
      rcases List.mem_cons.mp hp with rfl | hpm
      · rcases List.mem_cons.mp hq with rfl | hqm
        · exact le_refl _
        · exact hxle q hqm
      · rcases List.mem_cons.mp hq with rfl | hqm
        · have := sample_go_not_seen s rest _ p hpm
          exact absurd (hbq ▸ List.mem_cons_self _ seen) (hbq ▸ this)
        · exact ih _ hrest p hpm q hqm hbq

/-- C8: for a positive `interval_hours = h`, the `sample_interval` filter
output is a subset of its input, contains at most one product per bucket
(that is, the values `floor(sensing_start / (h * 3600))` are pairwise
distinct across the output), and the product retained for a bucket has the
earliest sensing start among the input members of that bucket. -/
theorem sample_interval_spec (h : Rat) (products : List FProduct)
    (hpos : 0 < h) :
    (∀ p ∈ sample_interval h products, p ∈ products) ∧
      (sample_interval h products).Pairwise
        (fun p q => bucket_of (h * 3600) p ≠ bucket_of (h * 3600) q) ∧
      (∀ p ∈ sample_interval h products, ∀ q ∈ products,
        bucket_of (h * 3600) q = bucket_of (h * 3600) p →
        p.sensing_start ≤ q.sensing_start) := by
  cases products with
  | nil =>
    have h0 : sample_interval h [] = [] := rfl
    rw [h0]
    exact ⟨fun p hp => absurd hp (List.not_mem_nil p), List.Pairwise.nil,
      fun p hp => absurd hp (List.not_mem_nil p)⟩
  | cons x xs =>
    have hperm := List.perm_insertionSort bySensing (x :: xs)
    have hsorted := List.sorted_insertionSort bySensing (x :: xs)
    have hred : sample_interval h (x :: xs) =
        sample_interval_go (h * 3600) ((x :: xs).insertionSort bySensing) [] := rfl
    rw [hred]
    refine ⟨?_, sample_go_pairwise _ _ _, ?_⟩
    · intro p hp
      exact hperm.mem_iff.mp
        (sample_go_mem _ _ _ p hp)
    · intro p hp q hq hbq
      exact sample_go_min _ _ [] hsorted p hp q (hperm.mem_iff.mpr hq) hbq

/-- Witness for C8 at `h = 3` and two products in the same 3-hour
bucket. -/
theorem sample_interval_spec_witness :
    0 < (3 : Rat) ∧
      ∀ p ∈ sample_interval 3 [⟨0, 7200⟩, ⟨1, 0⟩], p ∈
        [(⟨0, 7200⟩ : FProduct), ⟨1, 0⟩] :=
  ⟨by norm_num, (sample_interval_spec 3 [⟨0, 7200⟩, ⟨1, 0⟩] (by norm_num)).1⟩

/-! ## Lemmas: entry-key encoding -/

theorem split_first_none_of_not_infix (sep : List Char) (hne : sep ≠ []) :
    ∀ l : List Char, ¬ (sep <:+: l) → split_first sep l = none := by
  intro l
  induction l with
  | nil =>
    intro _
    rw [split_first, if_neg hne]
  | cons c rest ih =>
    intro hinf
    have hpre : ¬ (sep.isPrefixOf (c :: rest) = true) := by
      intro hp
      exact hinf (List.isPrefixOf_iff_prefix.mp hp).isInfix
    have hrec : split_first sep rest = none := ih (fun h =>
      hinf (h.trans (List.suffix_cons c rest).isInfix))
    rw [split_first, if_neg hpre, hrec]

theorem split_first_boundary (sep e : List Char) (hsep : sep ≠ []) :
    ∀ pid : List Char,
      (∀ i, i < pid.length →
        ¬ (sep.isPrefixOf ((pid ++ (sep ++ e)).drop i) = true)) →
      split_first sep (pid ++ (sep ++ e)) = some (pid, e) := by
  intro pid
  induction pid with
  | nil =>
    intro _
    cases sep with
    | nil => exact absurd rfl hsep
    | cons s0 sep' =>
      rw [List.nil_append, List.cons_append, split_first]
      rw [if_pos (List.isPrefixOf_iff_prefix.mpr
        (List.cons_append s0 sep' e ▸ List.prefix_append (s0 :: sep') e))]
      have hdrop : (s0 :: (sep' ++ e)).drop (s0 :: sep').length = e := by
        rw [List.length_cons, List.drop_succ_cons, List.drop_left]
      rw [hdrop]
  | cons c pid' ih =>
    intro H
    rw [List.cons_append, split_first]
    have h0 : ¬ (sep.isPrefixOf (c :: (pid' ++ (sep ++ e))) = true) := by
      have := H 0 (by simp)
      simpa using this
    rw [if_neg h0]
    rw [ih (fun i hi => by
      have := H (i + 1) (by simpa using Nat.succ_lt_succ hi)
      simpa using this)]

/-- When `pid` neither contains the separator nor ends with "::entry" or
"::entry:", no occurrence of the separator in `pid ++ sep ++ e` starts
inside `pid`. -/
theorem no_sep_occurrence_inside (pid e : List Char)
    (hinf : ¬ (entry_sep.toList <:+: pid))
    (h7 : ¬ ("::entry".toList <:+ pid))
    (h8 : ¬ ("::entry:".toList <:+ pid)) :
    ∀ i, i < pid.length →
      ¬ (entry_sep.toList.isPrefixOf
        ((pid ++ (entry_sep.toList ++ e)).drop i) = true) := by
  intro i hi hp
  have hpre : entry_sep.toList <+: ((pid ++ (entry_sep.toList ++ e)).drop i) :=
    List.isPrefixOf_iff_prefix.mp hp
  have hdroprw : (pid ++ (entry_sep.toList ++ e)).drop i =
      pid.drop i ++ (entry_sep.toList ++ e) := by
    rw [List.drop_append_eq_append_drop]
    have h0 : i - pid.length = 0 := by omega
    rw [h0, List.drop_zero]
  rw [hdroprw] at hpre
  have hdsuf : pid.drop i <:+ pid := List.drop_suffix i pid
  have hdlen : (pid.drop i).length = pid.length - i := List.length_drop i pid
  have hk1 : 1 ≤ (pid.drop i).length := by omega
  have hsep9 : entry_sep.toList.length = 9 := by decide
  have heq : entry_sep.toList =
      (pid.drop i ++ (entry_sep.toList ++ e)).take 9 := by
    have h := List.prefix_iff_eq_take.mp hpre
    rw [hsep9] at h
    exact h
  by_cases hk9 : 9 ≤ (pid.drop i).length
  · have htk : (pid.drop i ++ (entry_sep.toList ++ e)).take 9 =
        (pid.drop i).take 9 := by
      rw [List.take_append_eq_append_take]
      have h0 : 9 - (pid.drop i).length = 0 := by omega
      rw [h0, List.take_zero, List.append_nil]
    rw [htk] at heq
    have hpd : entry_sep.toList <+: pid.drop i := heq ▸ List.take_prefix 9 (pid.drop i)
    exact hinf (hpd.isInfix.trans hdsuf.isInfix)
  · push_neg at hk9
    have htk : (pid.drop i ++ (entry_sep.toList ++ e)).take 9 =
        pid.drop i ++ entry_sep.toList.take (9 - (pid.drop i).length) := by
      rw [List.take_append_eq_append_take]
      have h1 : (pid.drop i).take 9 = pid.drop i :=
        List.take_of_length_le (by omega)
      rw [h1, List.take_append_eq_append_take]
      have h2 : 9 - (pid.drop i).length - entry_sep.toList.length = 0 := by omega
      rw [h2, List.take_zero, List.append_nil]
    rw [htk] at heq
    have hd2 : pid.drop i = entry_sep.toList.take (pid.drop i).length := by
      have := congrArg (fun l => List.take (pid.drop i).length l) heq
      simpa [List.take_left] using this.symm
    obtain ⟨k, hk⟩ : ∃ k, (pid.drop i).length = k := ⟨_, rfl⟩
    rw [hk] at hk1 hk9 heq hd2
    interval_cases k
    · rw [hd2] at heq; exact absurd heq (by decide)
    · rw [hd2] at heq; exact absurd heq (by decide)
    · rw [hd2] at heq; exact absurd heq (by decide)
    · rw [hd2] at heq; exact absurd heq (by decide)
    · rw [hd2] at heq; exact absurd heq (by decide)
    · rw [hd2] at heq; exact absurd heq (by decide)
    · refine h7 ?_
      have hconv : "::entry".toList = pid.drop i := by rw [hd2]; decide
      rw [hconv]
      exact hdsuf
    · refine h8 ?_
      have hconv : "::entry:".toList = pid.drop i := by rw [hd2]; decide
      rw [hconv]
      exact hdsuf

/-- C10 (amended): the encode/decode round-trip holds for every product id
that does not contain the separator "::entry::" and does not end with
"::entry" or "::entry:" (the extra condition the first-occurrence split
forces); a key without the separator decodes to itself with no entry
name. -/
theorem entry_key_roundtrip (pid e key : String) :
    ((¬ (entry_sep.toList <:+: pid.toList)) →
      (¬ ("::entry".toList <:+ pid.toList)) →
      (¬ ("::entry:".toList <:+ pid.toList)) →
      decode_entry_key (encode_entry_key pid e) = (pid, some e)) ∧
      ((¬ (entry_sep.toList <:+: key.toList)) →
        decode_entry_key key = (key, none)) := by
  constructor
  · intro hinf h7 h8
    have hlist : (encode_entry_key pid e).toList =
        pid.toList ++ (entry_sep.toList ++ e.toList) := by
      simp [encode_entry_key]
    rw [decode_entry_key, hlist]
    rw [split_first_boundary entry_sep.toList e.toList (by decide) pid.toList
      (no_sep_occurrence_inside pid.toList e.toList hinf h7 h8)]
    rfl
  · intro hinf
    rw [decode_entry_key,
      split_first_none_of_not_infix entry_sep.toList (by decide) key.toList hinf]

/-- Counterexample to C10 as stated: the product id "A::entry" does not
contain the separator, yet encoding it with entry "B" decodes to
("A", "entry::B") — the separator's self-overlap lets an occurrence start
inside the id — so the round-trip fails. -/
theorem entry_key_roundtrip_cex :
    (¬ (entry_sep.toList <:+: "A::entry".toList)) ∧
      decode_entry_key (encode_entry_key "A::entry" "B") =
        ("A", some "entry::B") ∧
      decode_entry_key (encode_entry_key "A::entry" "B") ≠
        ("A::entry", some "B") := by
  refine ⟨by decide, by decide, by decide⟩
